import Mathlib

/-!
Verification of the DarkPDF core algorithms: the page-range resolver
(`src/api/utils.py`, `parse_page_ranges`), the highlight coordinate mapper
(`src/api/app.py`, `highlight_pdf`), and the style-preserving text
substitution engine (`src/api/editing.py`, `_find_span` and
`replace_text_preserving_style`).

Python strings are modelled as `List Char`, Python `float` as `ℚ`
(exact rational arithmetic as the idealisation of IEEE floats), Python
`int` as `Int`, and raising an exception as returning `Except.error`.
-/

namespace DarkPDF

/- ===================== Range Resolver (src/api/utils.py) ===================== -/

/-- Models Python's digit test on a character: an ASCII decimal digit is
mapped to its value. -/
def charDigit? (c : Char) : Option Nat :=
  if 48 ≤ c.toNat ∧ c.toNat ≤ 57 then some (c.toNat - 48) else none

/-- Accumulator loop of decimal-number parsing: processes digits
left to right, failing on the first non-digit. -/
def digitsToNatAux (acc : Nat) : List Char → Option Nat
  | [] => some acc
  | c :: cs =>
    match charDigit? c with
    | some d => digitsToNatAux (acc * 10 + d) cs
    | none => none

/-- Parses a non-empty all-digit string to a natural number; fails on the
empty string or on any non-digit character. -/
def digitsToNat (l : List Char) : Option Nat :=
  match l with
  | [] => none
  | _ :: _ => digitsToNatAux 0 l

/-- Models CPython's `int(str)` on the grammar actually exercised here:
an optional sign followed by ASCII decimal digits.  `none` models
`ValueError: invalid literal for int()`. -/
def pyIntCore (s : List Char) : Option Int :=
  match s with
  | [] => none
  | c :: rest =>
    if c = '-' then (digitsToNat rest).map (fun n => -Int.ofNat n)
    else if c = '+' then (digitsToNat rest).map Int.ofNat
    else (digitsToNat (c :: rest)).map Int.ofNat

/-- `int(s)` as the code uses it: a failed parse raises `ValueError`. -/
def pyInt (s : List Char) : Except String Int :=
  match pyIntCore s with
  | some v => .ok v
  | none => .error "invalid literal for int() with base 10"

/-- Models Python `str.split(sep)` (no max-split): always returns at least
one part, and empty parts are kept. -/
def pySplit (sep : Char) : List Char → List (List Char)
  | [] => [[]]
  | c :: cs =>
    if c = sep then [] :: pySplit sep cs
    else
      match pySplit sep cs with
      | [] => [[c]]
      | h :: t => (c :: h) :: t

/-- Models Python `str.split(sep, 1)` together with the `sep in str` test:
returns the text before the first separator, and `some` of the text after
it when the separator occurs at all. -/
def splitOnce (sep : Char) : List Char → List Char × Option (List Char)
  | [] => ([], none)
  | c :: cs =>
    if c = sep then ([], some cs)
    else
      let p := splitOnce sep cs
      (c :: p.1, p.2)

/-- Lines 11-16 of `utils.py`: turns one comma-separated chunk into the raw
`(start, end)` pair.  A chunk containing `-` is split at the first `-`;
an empty start defaults to `1` and an empty end to `total_pages`; a chunk
without `-` is a single page number used for both bounds. -/
def parseChunk (chunk : List Char) (total_pages : Int) : Except String (Int × Int) :=
  match splitOnce '-' chunk with
  | (start_str, some end_str) =>
    match (if start_str.isEmpty then .ok 1 else pyInt start_str : Except String Int) with
    | .error e => .error e
    | .ok start =>
      match (if end_str.isEmpty then .ok total_pages else pyInt end_str : Except String Int) with
      | .error e => .error e
      | .ok stop => .ok (start, stop)
  | (_, none) =>
    match pyInt chunk with
    | .error e => .error e
    | .ok v => .ok (v, v)

/-- Lines 11-23 of `utils.py`: the whole per-chunk step of the loop body of
`parse_page_ranges` — parse the chunk, reject `start < 1`, `end < 1` or
`start > total_pages`, silently clamp `end` down to `total_pages`, and
reject `start > end` after clamping. -/
def processChunk (chunk : List Char) (total_pages : Int) : Except String (Int × Int) :=
  match parseChunk chunk total_pages with
  | .error e => .error e
  | .ok se =>
    if se.1 < 1 ∨ se.2 < 1 ∨ se.1 > total_pages then
      .error "Invalid start in range"
    else
      let e2 := if se.2 > total_pages then total_pages else se.2
      if se.1 > e2 then .error "Start > end in range"
      else .ok (se.1, e2)

/-- The `for chunk in ranges.split(',')` loop of `parse_page_ranges`:
processes the chunks in order, aborting at the first error and otherwise
appending each resulting span. -/
def resolveChunks (total_pages : Int) : List (List Char) → Except String (List (Int × Int))
  | [] => .ok []
  | chunk :: rest =>
    match processChunk chunk total_pages with
    | .error e => .error e
    | .ok span =>
      match resolveChunks total_pages rest with
      | .error e => .error e
      | .ok spans => .ok (span :: spans)

/-- `parse_page_ranges` of `src/api/utils.py`: an empty (falsy) spec
defaults to `"1-"`, spaces are removed, and the comma-separated chunks are
resolved in order into inclusive 1-indexed page spans. -/
def parse_page_ranges (ranges : List Char) (total_pages : Int) :
    Except String (List (Int × Int)) :=
  let r := if ranges.isEmpty then ['1', '-'] else ranges
  let r := r.filter (fun c => c ≠ ' ')
  resolveChunks total_pages (pySplit ',' r)

/-- Decimal printing loop with explicit fuel (the fuel `n + 1` always
suffices): emits the digits of `n` most-significant first, in front of
`acc`. -/
def natToCharsAux : Nat → Nat → List Char → List Char
  | 0, _, acc => acc
  | fuel + 1, n, acc =>
    if n < 10 then Char.ofNat (48 + n) :: acc
    else natToCharsAux fuel (n / 10) (Char.ofNat (48 + n % 10) :: acc)

/-- Decimal representation of a natural number. -/
def natToChars (n : Nat) : List Char := natToCharsAux (n + 1) n []

/-- Decimal representation of an integer. -/
def intToChars (i : Int) : List Char :=
  if i < 0 then '-' :: natToChars (-i).toNat else natToChars i.toNat

/-- Joins parts with a single separator character between them. -/
def intercalateChar (sep : Char) : List (List Char) → List Char
  | [] => []
  | [p] => p
  | p :: ps => p ++ sep :: intercalateChar sep ps

/-- Modelled from the spec: re-serializes a resolved `RangeSet` back into a
comma-separated list of `start-end` expressions (the round-trip serializer
of §8; the repository itself never prints a range set). -/
def serializeSpans (spans : List (Int × Int)) : List Char :=
  intercalateChar ',' (spans.map (fun p => intToChars p.1 ++ '-' :: intToChars p.2))

/- ============== Coordinate Mapper (src/api/app.py, highlight_pdf) ============== -/

/-- A rectangle in document units, bottom-left origin: the `/Rect`
`[x1 y1 x2 y2]` written by `highlight_pdf`. -/
structure DeviceRect where
  x1 : ℚ
  y1 : ℚ
  x2 : ℚ
  y2 : ℚ
deriving DecidableEq

/-- Lines 312-319 of `app.py`: maps one normalized, top-down fractional
rectangle onto a page.  Rejects non-positive width/height up front,
floor-clamps the left edge, floor-and-ceiling-clamps the right edge,
flips the vertical axis with both `top` values clamped to `[0, 1]`, and
drops the result when it is degenerate. -/
def mapRect (left top width height page_width page_height : ℚ) : Option DeviceRect :=
  if width ≤ 0 ∨ height ≤ 0 then none
  else
    let x1 := max left 0 * page_width
    let x2 := min (left + width) 1 * page_width
    let y2 := (1 - max (min top 1) 0) * page_height
    let y1 := (1 - max (min (top + height) 1) 0) * page_height
    if x2 ≤ x1 ∨ y2 ≤ y1 then none
    else some ⟨x1, y1, x2, y2⟩

/-- One entry of the parsed `highlights` JSON list.  A field is `none` when
`float(item[key])` would raise `KeyError`, `ValueError` or `TypeError`
(missing or non-numeric). -/
structure HighlightItem where
  left : Option ℚ
  top : Option ℚ
  width : Option ℚ
  height : Option ℚ
deriving DecidableEq

/-- Lines 304-319 of `app.py` for a single item: the `try/except ... continue`
around the coordinate reads followed by the mapping; `none` means the item
is skipped. -/
def processItem (item : HighlightItem) (page_width page_height : ℚ) : Option DeviceRect :=
  match item.left, item.top, item.width, item.height with
  | some l, some t, some w, some h => mapRect l t w h page_width page_height
  | _, _, _, _ => none

/-- The geometric content of the per-page loop of `highlight_pdf`: the
device rectangles actually annotated, in item order, with skipped items
dropped. -/
def processPageHighlights (items : List HighlightItem) (page_width page_height : ℚ) :
    List DeviceRect :=
  items.filterMap (fun item => processItem item page_width page_height)

/- =============== Span Locator / Substitution (src/api/editing.py) =============== -/

/-- One span dictionary of PyMuPDF's `page.get_text("dict")` output, with
exactly the keys `replace_text_preserving_style` reads; a field is `none`
when the key is absent (the code supplies a default via `.get`). -/
structure Run where
  text : Option (List Char)
  font : Option (List Char)
  size : Option ℚ
  color : Option Int
  bbox : Option (ℚ × ℚ × ℚ × ℚ)
deriving DecidableEq

/-- One line dictionary: its `"spans"` list. -/
structure Line where
  spans : List Run
deriving DecidableEq

/-- One block dictionary: its `"lines"` list. -/
structure Block where
  lines : List Line
deriving DecidableEq

/-- The page layout dictionary: its `"blocks"` list. -/
structure PageLayout where
  blocks : List Block
deriving DecidableEq

/-- Auxiliary prefix test for `hasSub`. -/
def isPrefixChars : List Char → List Char → Bool
  | [], _ => true
  | _ :: _, [] => false
  | a :: as, b :: bs => a = b && isPrefixChars as bs

/-- Models Python's `needle in hay` on strings: contiguous, case-sensitive
substring containment. -/
def hasSub (needle : List Char) : List Char → Bool
  | [] => isPrefixChars needle []
  | c :: t => isPrefixChars needle (c :: t) || hasSub needle t

/-- `_find_span` of `src/api/editing.py` (lines 8-20), restricted to its
pure search: walks blocks, then lines, then spans in document order and
returns the first span whose text contains `find_text`. -/
def findSpanRun (layout : PageLayout) (find_text : List Char) : Option Run :=
  layout.blocks.findSome? (fun block =>
    block.lines.findSome? (fun line =>
      line.spans.find? (fun span => hasSub find_text (span.text.getD []))))

/-- All runs of a layout flattened in the blocks-then-lines-then-runs
document order that `_find_span` walks. -/
def runsInOrder (layout : PageLayout) : List Run :=
  layout.blocks.flatMap (fun block => block.lines.flatMap (fun line => line.spans))

/-- The `base14` alias table of `replace_text_preserving_style`
(lines 54-60 of `editing.py`). -/
def base14 : List (List Char × List Char) :=
  [("Times-Roman".toList, "tiro".toList),
   ("Times New Roman".toList, "tiro".toList),
   ("Helvetica".toList, "helv".toList),
   ("Arial".toList, "helv".toList),
   ("Courier".toList, "cour".toList)]

/-- The regex `re.sub(r"^[A-Z]{6}\+", "", name)` of line 61: removes a
leading subset tag of exactly six ASCII uppercase letters followed by
`+`. -/
def stripSubsetTag (s : List Char) : List Char :=
  match s with
  | a :: b :: c :: d :: e :: f :: '+' :: rest =>
    if [a, b, c, d, e, f].all (fun ch => 65 ≤ ch.toNat ∧ ch.toNat ≤ 90) then rest
    else s
  | _ => s

/-- Lines 61-69 of `editing.py`: strip the subset tag, look the cleaned
name up in `base14`, otherwise embed truthy (non-empty) fallback bytes
under the logical name `matchfont`, otherwise fall back to `helv`.  The
boolean records whether fallback bytes were embedded. -/
def resolveFontRef (font_name : List Char) (fallback_font_bytes : Option (List Nat)) :
    List Char × Bool :=
  let clean_name := stripSubsetTag font_name
  match base14.lookup clean_name with
  | some ref => (ref, false)
  | none =>
    match fallback_font_bytes with
    | some bs => if bs.isEmpty then ("helv".toList, false) else ("matchfont".toList, true)
    | none => ("helv".toList, false)

/-- Python `x >> k` on arbitrary-precision ints (arithmetic shift =
floor division by `2 ^ k`). -/
def pyShr (x : Int) (k : Nat) : Int := Int.fdiv x (2 ^ k)

/-- Python `x & 255` on arbitrary-precision ints (two's complement mask of
the low 8 bits = nonnegative remainder mod 256). -/
def pyAnd255 (x : Int) : Int := Int.emod x 256

/-- Everything `replace_text_preserving_style` draws on the page: the
masking rectangle with its stroke and fill colors, and the inserted text
with its position, font, size and color. -/
structure SubstOutcome where
  maskRect : ℚ × ℚ × ℚ × ℚ
  maskColor : ℚ × ℚ × ℚ
  maskFill : ℚ × ℚ × ℚ
  fontRef : List Char
  embeddedFallback : Bool
  insertPoint : ℚ × ℚ
  insertedText : List Char
  fontSize : ℚ
  textColor : ℚ × ℚ × ℚ
deriving DecidableEq

/-- `replace_text_preserving_style` of `src/api/editing.py` (lines 23-90),
as a pure function from the page's structured text layout to the drawing
commands it issues: locate the first matching span, raise when there is
none or when its bbox is missing, mask the bbox with a white rectangle,
resolve the font, decode the packed color, and insert the replacement at
the approximated baseline. -/
def replaceTextPreservingStyle (layout : PageLayout) (find_text replace_text : List Char)
    (fallback_font_bytes : Option (List Nat)) : Except String SubstOutcome :=
  match findSpanRun layout find_text with
  | none => .error "Target text not found on the specified page."
  | some span =>
    let font_name := span.font.getD []
    let font_size := span.size.getD 12
    let color := span.color.getD 0
    match span.bbox with
    | none => .error "Could not determine span bounding box."
    | some bb =>
      let fr := resolveFontRef font_name fallback_font_bytes
      let r := ((pyAnd255 (pyShr color 16) : Int) : ℚ) / 255
      let g := ((pyAnd255 (pyShr color 8) : Int) : ℚ) / 255
      let b := ((pyAnd255 color : Int) : ℚ) / 255
      let baseline_y := bb.2.2.2 - 0.2 * font_size
      .ok
        { maskRect := bb
          maskColor := (1, 1, 1)
          maskFill := (1, 1, 1)
          fontRef := fr.1
          embeddedFallback := fr.2
          insertPoint := (bb.1, baseline_y)
          insertedText := replace_text
          fontSize := font_size
          textColor := (r, g, b) }

/- ==================== Concrete witness data ==================== -/

/-- A first run whose text contains "Total". -/
def witRunA : Run :=
  ⟨some ("Total A".toList), some ("Arial".toList), some 10, some 255, some (1, 2, 3, 4)⟩

/-- A second run whose text also contains "Total". -/
def witRunB : Run := ⟨some ("Total B".toList), none, none, none, none⟩

/-- A one-block page layout holding `witRunA` before `witRunB`. -/
def witLayout : PageLayout := ⟨[⟨[⟨[witRunA]⟩, ⟨[witRunB]⟩]⟩]⟩

/-- The outcome `replace_text_preserving_style` produces on `witLayout`
when replacing "Total" by "X" with no fallback font. -/
def witOutcome : SubstOutcome :=
  { maskRect := (1, 2, 3, 4)
    maskColor := (1, 1, 1)
    maskFill := (1, 1, 1)
    fontRef := "helv".toList
    embeddedFallback := false
    insertPoint := (1, 4 - 0.2 * 10)
    insertedText := "X".toList
    fontSize := 10
    textColor :=
      (((pyAnd255 (pyShr 255 16) : Int) : ℚ) / 255,
       ((pyAnd255 (pyShr 255 8) : Int) : ℚ) / 255,
       ((pyAnd255 255 : Int) : ℚ) / 255) }

/- ============================== Helper lemmas ============================== -/

theorem findSome?_find?_flat {α β : Type} (ls : List α) (g : α → List β) (p : β → Bool) :
    ls.findSome? (fun a => (g a).find? p) = (ls.flatMap g).find? p := by
  induction ls with
  | nil => rfl
  | cons a as ih =>
    cases hg : (g a).find? p with
    | none =>
      simp only [List.findSome?_cons, List.flatMap_cons, List.find?_append, hg,
        Option.none_or]
      exact ih
    | some v =>
      simp only [List.findSome?_cons, List.flatMap_cons, List.find?_append, hg,
        Option.or_some]

theorem isPrefixChars_iff (n : List Char) : ∀ h, isPrefixChars n h = true ↔ n <+: h := by
  induction n with
  | nil => intro h; simp [isPrefixChars]
  | cons a as ih =>
    intro h
    cases h with
    | nil => simp [isPrefixChars]
    | cons b bs => simp [isPrefixChars, List.cons_prefix_cons, ih bs]

theorem hasSub_iff (n : List Char) : ∀ hay, hasSub n hay = true ↔ n <:+: hay := by
  intro hay
  induction hay with
  | nil => simp [hasSub, isPrefixChars_iff, List.prefix_nil, List.infix_nil]
  | cons c t ih => simp [hasSub, isPrefixChars_iff, ih, List.infix_cons_iff]

theorem findSpanRun_eq_find? (layout : PageLayout) (t : List Char) :
    findSpanRun layout t =
      (runsInOrder layout).find? (fun r => hasSub t (r.text.getD [])) := by
  unfold findSpanRun runsInOrder
  rw [← findSome?_find?_flat]
  congr 1
  funext block
  rw [← findSome?_find?_flat]

theorem pySplit_ne_nil (sep : Char) (s : List Char) : pySplit sep s ≠ [] := by
  induction s with
  | nil => simp [pySplit]
  | cons c cs ih =>
    simp only [pySplit]
    split
    · simp
    · cases hps : pySplit sep cs <;> simp

theorem processChunk_zero (chunk : List Char) :
    ∃ msg, processChunk chunk 0 = .error msg := by
  unfold processChunk
  cases hp : parseChunk chunk 0 with
  | error e => exact ⟨e, rfl⟩
  | ok se =>
    simp only
    rw [if_pos (by omega)]
    exact ⟨_, rfl⟩

theorem processChunk_ok_inv (chunk : List Char) (total : Int) (sp : Int × Int)
    (h : processChunk chunk total = .ok sp) :
    1 ≤ sp.1 ∧ sp.1 ≤ sp.2 ∧ sp.2 ≤ total := by
  unfold processChunk at h
  cases hp : parseChunk chunk total with
  | error e => rw [hp] at h; cases h
  | ok se =>
    rw [hp] at h
    simp only at h
    split_ifs at h with h1 h2 h3 <;>
      (injection h with h4; subst h4; refine ⟨?_, ?_, ?_⟩ <;> simp <;> omega)

theorem resolveChunks_inv (total : Int) (chunks : List (List Char))
    (spans : List (Int × Int)) (h : resolveChunks total chunks = .ok spans) :
    ∀ sp ∈ spans, 1 ≤ sp.1 ∧ sp.1 ≤ sp.2 ∧ sp.2 ≤ total := by
  induction chunks generalizing spans with
  | nil =>
    unfold resolveChunks at h
    injection h with h1
    subst h1
    intro sp hsp
    cases hsp
  | cons c cs ih =>
    unfold resolveChunks at h
    cases hc : processChunk c total with
    | error e => rw [hc] at h; cases h
    | ok sp1 =>
      rw [hc] at h
      cases hr : resolveChunks total cs with
      | error e => rw [hr] at h; cases h
      | ok spans2 =>
        rw [hr] at h
        injection h with h1
        subst h1
        intro sp hsp
        rcases List.mem_cons.mp hsp with h2 | h2
        · subst h2; exact processChunk_ok_inv _ _ _ hc
        · exact ih spans2 hr sp h2

theorem resolveChunks_length (total : Int) (chunks : List (List Char))
    (spans : List (Int × Int)) (h : resolveChunks total chunks = .ok spans) :
    spans.length = chunks.length := by
  induction chunks generalizing spans with
  | nil =>
    unfold resolveChunks at h
    injection h with h1
    subst h1
    rfl
  | cons c cs ih =>
    unfold resolveChunks at h
    cases hc : processChunk c total with
    | error e => rw [hc] at h; cases h
    | ok sp1 =>
      rw [hc] at h
      cases hr : resolveChunks total cs with
      | error e => rw [hr] at h; cases h
      | ok spans2 =>
        rw [hr] at h
        injection h with h1
        subst h1
        simp [ih spans2 hr]

/- ============================ Claim theorems ============================ -/

/-- C1: Range Resolver asymmetry.  For every spec token whose resolved
start lies in `[1, totalPages]` but whose resolved end exceeds
`totalPages`, the resolver clamps the end down to `totalPages` and
succeeds for that token; a resolved start above `totalPages` or below `1`
is a hard error; a start above the end after clamping is a hard error;
and `resolve("3,99", 5)` raises because its second token's start `99`
exceeds `5`. -/
theorem range_resolver_asymmetry :
    (∀ (chunk : List Char) (total s e : Int),
      1 ≤ total →
      parseChunk chunk total = .ok (s, e) →
      ((1 ≤ s ∧ s ≤ total ∧ total < e → processChunk chunk total = .ok (s, total)) ∧
       (s > total ∨ s < 1 → ∃ msg, processChunk chunk total = .error msg) ∧
       (1 ≤ s ∧ s ≤ total ∧ s > (if e > total then total else e) →
         ∃ msg, processChunk chunk total = .error msg))) ∧
    (∃ msg, parse_page_ranges ("3,99".toList) 5 = .error msg) := by
  constructor
  · intro chunk total s e htot hp
    refine ⟨?_, ?_, ?_⟩
    · rintro ⟨h1, h2, h3⟩
      unfold processChunk
      rw [hp]
      simp only
      rw [if_neg (by omega), if_pos h3, if_neg (by omega)]
    · intro hor
      unfold processChunk
      rw [hp]
      simp only
      rw [if_pos (by omega)]
      exact ⟨_, rfl⟩
    · rintro ⟨h1, h2, h3⟩
      by_cases he : e > total
      · rw [if_pos he] at h3
        omega
      · rw [if_neg he] at h3
        by_cases he1 : e < 1
        · unfold processChunk
          rw [hp]
          simp only
          rw [if_pos (by omega)]
          exact ⟨_, rfl⟩
        · unfold processChunk
          rw [hp]
          simp only
          rw [if_neg (by omega), if_neg he, if_pos h3]
          exact ⟨_, rfl⟩
  · exact ⟨"Invalid start in range", by rfl⟩

/-- Witness for C1: token `3-99` with 5 total pages clamps to `(3, 5)`;
token `99` with 5 total pages is rejected; token `5-3` with 10 total pages
is rejected. -/
theorem range_resolver_asymmetry_witness :
    processChunk ("3-99".toList) 5 = .ok (3, 5) ∧
    (∃ msg, processChunk ("99".toList) 5 = .error msg) ∧
    (∃ msg, processChunk ("5-3".toList) 10 = .error msg) := by
  have h := range_resolver_asymmetry
  refine ⟨?_, ?_, ?_⟩
  · exact (h.1 ("3-99".toList) 5 3 99 (by decide) (by rfl)).1 ⟨by decide, by decide, by decide⟩
  · exact (h.1 ("99".toList) 5 99 99 (by decide) (by rfl)).2.1 (Or.inl (by decide))
  · exact (h.1 ("5-3".toList) 10 5 3 (by decide) (by rfl)).2.2 ⟨by decide, by decide, by decide⟩

/-- C8: with zero total pages, `resolve` fails deterministically for every
spec string; it never returns a range set. -/
theorem zero_pages_always_error (ranges : List Char) :
    ∃ msg, parse_page_ranges ranges 0 = .error msg := by
  unfold parse_page_ranges
  simp only
  cases hps : pySplit ',' ((if ranges.isEmpty then ['1', '-'] else ranges).filter
      (fun c => c ≠ ' ')) with
  | nil => exact absurd hps (pySplit_ne_nil _ _)
  | cons c cs =>
    unfold resolveChunks
    obtain ⟨msg, hmsg⟩ := processChunk_zero c
    rw [hmsg]
    exact ⟨msg, rfl⟩

/-- C3: Coordinate Mapper formulas.  For positive width, height and page
dimensions, every produced device rectangle satisfies the spec's four edge
formulas (with the right edge floor-and-ceiling clamped), and the region
is dropped exactly when the rectangle those formulas describe is
degenerate. -/
theorem coordinate_mapper_formulas (l t w h pw ph : ℚ)
    (hw : 0 < w) (hh : 0 < h) (hpw : 0 < pw) (hph : 0 < ph) :
    (∀ d, mapRect l t w h pw ph = some d →
      d.x1 = max l 0 * pw ∧
      d.x2 = max (min (l + w) 1) 0 * pw ∧
      d.y2 = (1 - max (min t 1) 0) * ph ∧
      d.y1 = (1 - max (min (t + h) 1) 0) * ph) ∧
    (mapRect l t w h pw ph = none ↔
      max (min (l + w) 1) 0 * pw ≤ max l 0 * pw ∨
      (1 - max (min t 1) 0) * ph ≤ (1 - max (min (t + h) 1) 0) * ph) := by
  have hA : 0 ≤ max l 0 * pw := mul_nonneg (le_max_right l 0) hpw.le
  have hx : min (l + w) 1 * pw ≤ max l 0 * pw ↔
      max (min (l + w) 1) 0 * pw ≤ max l 0 * pw := by
    rcases le_or_lt 0 (min (l + w) 1) with hm | hm
    · rw [max_eq_left hm]
    · constructor
      · intro _
        rw [max_eq_right hm.le]
        simpa using hA
      · intro _
        have hneg : min (l + w) 1 * pw < 0 := mul_neg_of_neg_of_pos hm hpw
        linarith
  unfold mapRect
  rw [if_neg (by push_neg; exact ⟨hw, hh⟩)]
  simp only
  constructor
  · intro d hd
    split_ifs at hd with hc
    injection hd with hd2
    subst hd2
    push_neg at hc
    refine ⟨rfl, ?_, rfl, rfl⟩
    have hpos : 0 < min (l + w) 1 * pw := lt_of_le_of_lt hA hc.1
    have hm : 0 < min (l + w) 1 := by
      by_contra hle
      push_neg at hle
      nlinarith
    rw [max_eq_left hm.le]
  · split_ifs with hc
    · exact ⟨fun _ => hc.imp hx.mp id, fun _ => rfl⟩
    · refine ⟨fun habs => ?_, fun hr => absurd (hr.imp hx.mpr id) hc⟩
      simp at habs

/-- Witness for C3: the mapped rectangle of
`{left: 0.1, top: 0.2, width: 0.4, height: 0.08}` on a 612 x 792 page
matches the four formulas. -/
theorem coordinate_mapper_formulas_witness :
    mapRect 0.1 0.2 0.4 0.08 612 792 = some ⟨61.2, 570.24, 306, 633.6⟩ ∧
    ((61.2 : ℚ) = max (0.1 : ℚ) 0 * 612 ∧
     (306 : ℚ) = max (min ((0.1 : ℚ) + 0.4) 1) 0 * 612 ∧
     (633.6 : ℚ) = (1 - max (min (0.2 : ℚ) 1) 0) * 792 ∧
     (570.24 : ℚ) = (1 - max (min ((0.2 : ℚ) + 0.08) 1) 0) * 792) := by
  have hm : mapRect 0.1 0.2 0.4 0.08 612 792 = some ⟨61.2, 570.24, 306, 633.6⟩ := by
    norm_num [mapRect, min_def, max_def]
  have h := (coordinate_mapper_formulas 0.1 0.2 0.4 0.08 612 792 (by norm_num)
    (by norm_num) (by norm_num) (by norm_num)).1 ⟨61.2, 570.24, 306, 633.6⟩ hm
  exact ⟨hm, h⟩

/-- C4 counterexample: the spec's worked example is wrong about the
vertical edges.  On the code, `{left: 0.1, top: 0.2, width: 0.4,
height: 0.08}` at 612 x 792 maps to `x1 = 61.2`, `y1 = 570.24`,
`x2 = 306`, `y2 = 633.6`; no produced rectangle has `y2 = 570.24` and
`y1 = 507.84` as the claim states. -/
theorem coordinate_example_cex :
    mapRect 0.1 0.2 0.4 0.08 612 792 = some ⟨61.2, 570.24, 306, 633.6⟩ ∧
    ¬ ∃ d, mapRect 0.1 0.2 0.4 0.08 612 792 = some d ∧
      d.y2 = 570.24 ∧ d.y1 = 507.84 := by
  have hm : mapRect 0.1 0.2 0.4 0.08 612 792 = some ⟨61.2, 570.24, 306, 633.6⟩ := by
    norm_num [mapRect, min_def, max_def]
  refine ⟨hm, ?_⟩
  rintro ⟨d, hd, h2, h1⟩
  rw [hm] at hd
  injection hd with hd2
  rw [← hd2] at h2
  norm_num at h2

/-- C4 amended: the example maps to `x1 = 61.2`, `y1 = 570.24`, `x2 = 306`,
`y2 = 633.6` (exact over rational arithmetic), and any rectangle with zero
or negative width or height yields nothing. -/
theorem coordinate_example_amended :
    mapRect 0.1 0.2 0.4 0.08 612 792 = some ⟨61.2, 570.24, 306, 633.6⟩ ∧
    ∀ l t w h pw ph : ℚ, w ≤ 0 ∨ h ≤ 0 → mapRect l t w h pw ph = none := by
  refine ⟨by norm_num [mapRect, min_def, max_def], ?_⟩
  intro l t w h pw ph hcond
  unfold mapRect
  rw [if_pos hcond]

/-- Witness for the amended C4: a zero-width rectangle is dropped. -/
theorem coordinate_example_amended_witness :
    mapRect 0.1 0.2 0 0.08 612 792 = none :=
  coordinate_example_amended.2 0.1 0.2 0 0.08 612 792 (Or.inl le_rfl)

/-- C7: per-item geometric degradation.  An item with a missing or
non-numeric coordinate, a non-positive width or height, or a degenerate
mapped rectangle is skipped without error, and removing such an item from
a batch leaves the remaining annotations unchanged. -/
theorem per_item_degradation (pre post : List HighlightItem) (bad item : HighlightItem)
    (pw ph : ℚ) :
    ((bad.left = none ∨ bad.top = none ∨ bad.width = none ∨ bad.height = none) →
      processItem bad pw ph = none) ∧
    (∀ l t w h, item.left = some l → item.top = some t → item.width = some w →
      item.height = some h → w ≤ 0 ∨ h ≤ 0 → processItem item pw ph = none) ∧
    (∀ l t w h, item.left = some l → item.top = some t → item.width = some w →
      item.height = some h → mapRect l t w h pw ph = none →
      processItem item pw ph = none) ∧
    (processItem bad pw ph = none →
      processPageHighlights (pre ++ bad :: post) pw ph =
        processPageHighlights (pre ++ post) pw ph) := by
  refine ⟨?_, ?_, ?_, ?_⟩
  · intro hmiss
    obtain ⟨la, ta, wa, ha⟩ := bad
    cases la <;> cases ta <;> cases wa <;> cases ha <;>
      first
      | rfl
      | (exfalso; rcases hmiss with hxx | hxx | hxx | hxx <;> simp at hxx)
  · intro l t w h hl ht hw hh hcond
    unfold processItem
    rw [hl, ht, hw, hh]
    simp only
    unfold mapRect
    rw [if_pos hcond]
  · intro l t w h hl ht hw hh hmap
    unfold processItem
    rw [hl, ht, hw, hh]
    simp only
    exact hmap
  · intro hskip
    unfold processPageHighlights
    rw [List.filterMap_append, List.filterMap_append]
    congr 1
    rw [List.filterMap_cons]
    simp only [hskip]

/-- Witness for C7: an item with a missing `left` is skipped and the valid
item of the same batch is still annotated. -/
theorem per_item_degradation_witness :
    processItem ⟨none, some 0, some 1, some 1⟩ 612 792 = none ∧
    processPageHighlights
        [⟨some 0.1, some 0.2, some 0.4, some 0.08⟩, ⟨none, some 0, some 1, some 1⟩] 612 792 =
      processPageHighlights [⟨some 0.1, some 0.2, some 0.4, some 0.08⟩] 612 792 := by
  have h := per_item_degradation [⟨some 0.1, some 0.2, some 0.4, some 0.08⟩] []
    ⟨none, some 0, some 1, some 1⟩ ⟨none, some 0, some 1, some 1⟩ 612 792
  have h1 := h.1 (Or.inl rfl)
  exact ⟨h1, h.2.2.2 h1⟩

/-- C10: every emitted highlight rectangle lies entirely within the page:
`0 ≤ x1 < x2 ≤ pageWidth` and `0 ≤ y1 < y2 ≤ pageHeight`. -/
theorem highlight_containment (item : HighlightItem) (pw ph : ℚ) (d : DeviceRect)
    (hpw : 0 < pw) (hph : 0 < ph) (hd : processItem item pw ph = some d) :
    0 ≤ d.x1 ∧ d.x1 < d.x2 ∧ d.x2 ≤ pw ∧ 0 ≤ d.y1 ∧ d.y1 < d.y2 ∧ d.y2 ≤ ph := by
  obtain ⟨l?, t?, w?, h?⟩ := item
  cases l? <;> cases t? <;> cases w? <;> cases h? <;> simp only [processItem] at hd <;>
    try cases hd
  rename_i l t w h
  unfold mapRect at hd
  simp only at hd
  split_ifs at hd with h1 h2
  injection hd with hd2
  subst hd2
  push_neg at h2
  obtain ⟨hx12, hy12⟩ := h2
  have hA : 0 ≤ max l 0 * pw := mul_nonneg (le_max_right l 0) hpw.le
  have hx2 : min (l + w) 1 * pw ≤ pw := by
    have := mul_le_mul_of_nonneg_right (min_le_right (l + w) 1) hpw.le
    simpa using this
  have hclamp1 : max (min (t + h) 1) 0 ≤ 1 :=
    max_le (le_trans (min_le_right _ _) le_rfl) zero_le_one
  have hclamp0 : 0 ≤ max (min t 1) 0 := le_max_right _ _
  have hy1 : 0 ≤ (1 - max (min (t + h) 1) 0) * ph :=
    mul_nonneg (by linarith) hph.le
  have hy2 : (1 - max (min t 1) 0) * ph ≤ ph := by
    have hfac : 1 - max (min t 1) 0 ≤ 1 := by linarith
    have := mul_le_mul_of_nonneg_right hfac hph.le
    simpa using this
  exact ⟨hA, hx12, hx2, hy1, hy12, hy2⟩

/-- Witness for C10: the example rectangle is contained in the 612 x 792
page. -/
theorem highlight_containment_witness :
    (0 : ℚ) ≤ 61.2 ∧ (61.2 : ℚ) < 306 ∧ (306 : ℚ) ≤ 612 ∧
    (0 : ℚ) ≤ 570.24 ∧ (570.24 : ℚ) < 633.6 ∧ (633.6 : ℚ) ≤ 792 :=
  highlight_containment ⟨some 0.1, some 0.2, some 0.4, some 0.08⟩ 612 792
    ⟨61.2, 570.24, 306, 633.6⟩ (by norm_num) (by norm_num)
    (by norm_num [processItem, mapRect, min_def, max_def])

/-- C2: Span Locator first-match order stability.  `hasSub` is exactly
case-sensitive substring containment; the locator equals the first match
of the depth-first blocks-then-lines-then-runs flattening; when the runs
split as `pre ++ r :: post` with no match in `pre` and `r` matching, `r`
is returned; and when nothing matches, the substitution surfaces the
"target text not found" error. -/
theorem span_locator_first_match (layout : PageLayout) (t rt : List Char)
    (fb : Option (List Nat)) :
    (∀ hay, hasSub t hay = true ↔ t <:+: hay) ∧
    findSpanRun layout t =
      (runsInOrder layout).find? (fun r => hasSub t (r.text.getD [])) ∧
    (∀ pre r post, runsInOrder layout = pre ++ r :: post →
      (∀ r2 ∈ pre, hasSub t (r2.text.getD []) = false) →
      hasSub t (r.text.getD []) = true →
      findSpanRun layout t = some r) ∧
    (findSpanRun layout t = none →
      replaceTextPreservingStyle layout t rt fb =
        .error "Target text not found on the specified page.") := by
  refine ⟨fun hay => hasSub_iff t hay, findSpanRun_eq_find? layout t, ?_, ?_⟩
  · intro pre r post hsplit hpre hr
    rw [findSpanRun_eq_find? layout t, hsplit, List.find?_append]
    have hnone : pre.find? (fun r2 => hasSub t (r2.text.getD [])) = none :=
      List.find?_eq_none.mpr (fun x hx => by simp [hpre x hx])
    rw [hnone, Option.none_or,
      List.find?_cons_of_pos post (show (fun r2 => hasSub t (r2.text.getD [])) r = true from hr)]
  · intro hnone
    unfold replaceTextPreservingStyle
    rw [hnone]

/-- Witness for C2: on a layout whose first and second runs both contain
"Total", the locator returns the first run. -/
theorem span_locator_first_match_witness :
    hasSub ("Total".toList) (witRunB.text.getD []) = true ∧
    findSpanRun witLayout ("Total".toList) = some witRunA := by
  have h := span_locator_first_match witLayout ("Total".toList) [] none
  exact ⟨by decide, h.2.2.1 [] witRunA [witRunB] (by decide) (by simp) (by decide)⟩

/-- C5 counterexample: the claim that supplied fallback font bytes are
always embedded fails for *empty* fallback bytes.  `NotAFont` has no
alias, yet with `some []` as the fallback the resolver returns the
generic default, not the embedded-fallback reference, because the code's
truthiness test `if fallback_font_bytes:` treats `b""` as absent. -/
theorem style_resolver_empty_fallback_cex :
    base14.lookup (stripSubsetTag ("NotAFont".toList)) = none ∧
    resolveFontRef ("NotAFont".toList) (some []) = ("helv".toList, false) ∧
    (("helv".toList, false) : List Char × Bool) ≠ ("matchfont".toList, true) := by
  exact ⟨by decide, by decide, by decide⟩

/-- C5 amended: resolution is total — strip the subset tag, return an
alias-table hit regardless of the fallback, embed *non-empty* fallback
bytes under the fixed logical name when there is no alias, and degrade to
the generic default when the fallback is absent or empty; in particular,
`ABCDEF+Arial` cleans to `Arial` and resolves to the Helvetica-family
builtin with no fallback needed. -/
theorem style_resolver_total (fontId : List Char) (fb : Option (List Nat)) :
    (stripSubsetTag ("ABCDEF+Arial".toList) = "Arial".toList ∧
     resolveFontRef ("ABCDEF+Arial".toList) none = ("helv".toList, false) ∧
     resolveFontRef ("ABCDEF+Arial".toList) fb = ("helv".toList, false)) ∧
    (∀ ref, base14.lookup (stripSubsetTag fontId) = some ref →
      resolveFontRef fontId fb = (ref, false)) ∧
    (base14.lookup (stripSubsetTag fontId) = none →
      (∀ bs, fb = some bs → bs ≠ [] →
        resolveFontRef fontId fb = ("matchfont".toList, true)) ∧
      ((fb = none ∨ fb = some []) →
        resolveFontRef fontId fb = ("helv".toList, false))) := by
  refine ⟨⟨by decide, by decide, ?_⟩, ?_, ?_⟩
  · unfold resolveFontRef
    simp only
    rw [show base14.lookup (stripSubsetTag ("ABCDEF+Arial".toList)) =
      some ("helv".toList) from by decide]
  · intro ref href
    unfold resolveFontRef
    simp only
    rw [href]
  · intro hnone
    constructor
    · intro bs hbs hne
      subst hbs
      unfold resolveFontRef
      simp only
      rw [hnone]
      simp only
      rw [if_neg (by simp [List.isEmpty_iff, hne])]
    · rintro (hfb | hfb) <;> subst hfb <;> unfold resolveFontRef <;> simp only <;>
        rw [hnone] <;> rfl

/-- Witness for C5 (amended): a subset-tagged Helvetica resolves through
the alias table even with a fallback present; an unknown id embeds
non-empty fallback bytes; an unknown id without fallback degrades to the
default. -/
theorem style_resolver_total_witness :
    resolveFontRef ("GHIJKL+Helvetica".toList) (some [7]) = ("helv".toList, false) ∧
    resolveFontRef ("Mystery".toList) (some [7]) = ("matchfont".toList, true) ∧
    resolveFontRef ("Mystery".toList) none = ("helv".toList, false) := by
  have h1 := (style_resolver_total ("GHIJKL+Helvetica".toList) (some [7])).2.1
    ("helv".toList) (by decide)
  have h2 := ((style_resolver_total ("Mystery".toList) (some [7])).2.2 (by decide)).1
    [7] rfl (by decide)
  have h3 := ((style_resolver_total ("Mystery".toList) none).2.2 (by decide)).2 (Or.inl rfl)
  exact ⟨h1, h2, h3⟩

/-- C6: Substitution Engine postcondition.  Whenever substitution
succeeds, it masks exactly the located run's bounding box with an opaque
white rectangle and inserts the replacement at
`(x0, y1 - 0.2 * fontSize)` using the resolved font reference, the run's
font size, and the packed color decoded channel-wise by
`(color >> 16) & 255`, `(color >> 8) & 255`, `color & 255`, each divided
by 255. -/
theorem substitution_postcondition (layout : PageLayout) (ft rt : List Char)
    (fb : Option (List Nat)) (out : SubstOutcome)
    (hok : replaceTextPreservingStyle layout ft rt fb = .ok out) :
    ∃ run x0 y0 x1 y1,
      findSpanRun layout ft = some run ∧
      run.bbox = some (x0, y0, x1, y1) ∧
      out.maskRect = (x0, y0, x1, y1) ∧
      out.maskColor = (1, 1, 1) ∧
      out.maskFill = (1, 1, 1) ∧
      out.fontRef = (resolveFontRef (run.font.getD []) fb).1 ∧
      out.embeddedFallback = (resolveFontRef (run.font.getD []) fb).2 ∧
      out.fontSize = run.size.getD 12 ∧
      out.insertPoint = (x0, y1 - 0.2 * run.size.getD 12) ∧
      out.insertedText = rt ∧
      out.textColor =
        (((pyAnd255 (pyShr (run.color.getD 0) 16) : Int) : ℚ) / 255,
         ((pyAnd255 (pyShr (run.color.getD 0) 8) : Int) : ℚ) / 255,
         ((pyAnd255 (run.color.getD 0) : Int) : ℚ) / 255) := by
  unfold replaceTextPreservingStyle at hok
  cases hfs : findSpanRun layout ft with
  | none => rw [hfs] at hok; simp at hok
  | some run =>
    rw [hfs] at hok
    simp only at hok
    cases hbb : run.bbox with
    | none => rw [hbb] at hok; simp at hok
    | some bb =>
      rw [hbb] at hok
      simp only at hok
      obtain ⟨x0, y0, x1, y1⟩ := bb
      injection hok with hok2
      subst hok2
      exact ⟨run, x0, y0, x1, y1, rfl, hbb, rfl, rfl, rfl, rfl, rfl, rfl, rfl, rfl, rfl⟩

/-- Witness for C6: the concrete substitution on `witLayout` satisfies the
postcondition with `witRunA`'s box `(1, 2, 3, 4)`, size 10 and packed
color 255. -/
theorem substitution_postcondition_witness :
    ∃ run x0 y0 x1 y1,
      findSpanRun witLayout ("Total".toList) = some run ∧
      run.bbox = some (x0, y0, x1, y1) ∧
      witOutcome.maskRect = (x0, y0, x1, y1) ∧
      witOutcome.maskColor = (1, 1, 1) ∧
      witOutcome.maskFill = (1, 1, 1) ∧
      witOutcome.fontRef = (resolveFontRef (run.font.getD []) none).1 ∧
      witOutcome.embeddedFallback = (resolveFontRef (run.font.getD []) none).2 ∧
      witOutcome.fontSize = run.size.getD 12 ∧
      witOutcome.insertPoint = (x0, y1 - 0.2 * run.size.getD 12) ∧
      witOutcome.insertedText = "X".toList ∧
      witOutcome.textColor =
        (((pyAnd255 (pyShr (run.color.getD 0) 16) : Int) : ℚ) / 255,
         ((pyAnd255 (pyShr (run.color.getD 0) 8) : Int) : ℚ) / 255,
         ((pyAnd255 (run.color.getD 0) : Int) : ℚ) / 255) :=
  substitution_postcondition witLayout ("Total".toList) ("X".toList) none witOutcome rfl

/- ================= Round-trip machinery for the Range Resolver ================= -/

theorem digitsToNatAux_append (xs : List Char) : ∀ (acc : Nat) (ys : List Char),
    digitsToNatAux acc (xs ++ ys) =
      match digitsToNatAux acc xs with
      | some a => digitsToNatAux a ys
      | none => none := by
  induction xs with
  | nil => intro acc ys; rfl
  | cons c cs ih =>
    intro acc ys
    cases hc : charDigit? c with
    | some d =>
      simp only [List.cons_append, digitsToNatAux, hc]
      exact ih _ ys
    | none =>
      simp only [List.cons_append, digitsToNatAux, hc]

theorem toNat_digit_char (m : Nat) (hm : m < 10) :
    (Char.ofNat (48 + m)).toNat = 48 + m := by
  interval_cases m <;> decide

theorem charDigit?_digit_char (m : Nat) (hm : m < 10) :
    charDigit? (Char.ofNat (48 + m)) = some m := by
  interval_cases m <;> decide

theorem natToCharsAux_acc (fuel : Nat) : ∀ (n : Nat) (acc : List Char), n < fuel →
    natToCharsAux fuel n acc = natToCharsAux fuel n [] ++ acc := by
  induction fuel with
  | zero => intro n acc h; omega
  | succ f ih =>
    intro n acc h
    simp only [natToCharsAux]
    split_ifs with h10
    · rfl
    · have hdiv : n / 10 < f := by omega
      rw [ih (n / 10) (Char.ofNat (48 + n % 10) :: acc) hdiv,
        ih (n / 10) [Char.ofNat (48 + n % 10)] hdiv, List.append_assoc]
      rfl

theorem natToCharsAux_ne_nil (fuel : Nat) : ∀ n : Nat, n < fuel →
    natToCharsAux fuel n [] ≠ [] := by
  induction fuel with
  | zero => intro n h; omega
  | succ f ih =>
    intro n h
    simp only [natToCharsAux]
    split_ifs with h10
    · simp
    · have hdiv : n / 10 < f := by omega
      rw [natToCharsAux_acc f (n / 10) _ hdiv]
      simp

theorem natToCharsAux_digits (fuel : Nat) : ∀ (n : Nat) (acc : List Char), n < fuel →
    ∀ c ∈ natToCharsAux fuel n acc, (48 ≤ c.toNat ∧ c.toNat ≤ 57) ∨ c ∈ acc := by
  induction fuel with
  | zero => intro n acc h; omega
  | succ f ih =>
    intro n acc h c hc
    simp only [natToCharsAux] at hc
    split_ifs at hc with h10
    · rcases List.mem_cons.mp hc with h1 | h1
      · subst h1
        left
        rw [toNat_digit_char n h10]
        omega
      · right; exact h1
    · have hdiv : n / 10 < f := by omega
      rcases ih (n / 10) _ hdiv c hc with h1 | h1
      · left; exact h1
      · rcases List.mem_cons.mp h1 with h2 | h2
        · subst h2
          left
          rw [toNat_digit_char (n % 10) (by omega)]
          omega
        · right; exact h2

theorem digitsToNatAux_natToCharsAux (fuel : Nat) : ∀ n : Nat, n < fuel →
    digitsToNatAux 0 (natToCharsAux fuel n []) = some n := by
  induction fuel with
  | zero => intro n h; omega
  | succ f ih =>
    intro n h
    simp only [natToCharsAux]
    split_ifs with h10
    · simp only [digitsToNatAux, charDigit?_digit_char n h10]
      congr 1
      omega
    · have hdiv : n / 10 < f := by omega
      rw [natToCharsAux_acc f (n / 10) _ hdiv, digitsToNatAux_append, ih (n / 10) hdiv]
      simp only [digitsToNatAux, charDigit?_digit_char (n % 10) (by omega)]
      congr 1
      omega

theorem natToChars_digits (n : Nat) (c : Char) (hc : c ∈ natToChars n) :
    48 ≤ c.toNat ∧ c.toNat ≤ 57 := by
  rcases natToCharsAux_digits (n + 1) n [] (by omega) c hc with h | h
  · exact h
  · cases h

theorem natToChars_ne_nil (n : Nat) : natToChars n ≠ [] :=
  natToCharsAux_ne_nil (n + 1) n (by omega)

theorem natToChars_isEmpty (n : Nat) : (natToChars n).isEmpty = false := by
  cases hnc : natToChars n with
  | nil => exact absurd hnc (natToChars_ne_nil n)
  | cons a b => rfl

theorem digitsToNat_natToChars (n : Nat) : digitsToNat (natToChars n) = some n := by
  have h : digitsToNatAux 0 (natToChars n) = some n :=
    digitsToNatAux_natToCharsAux (n + 1) n (by omega)
  cases hnc : natToChars n with
  | nil => exact absurd hnc (natToChars_ne_nil n)
  | cons c cs =>
    rw [hnc] at h
    unfold digitsToNat
    exact h

theorem pyIntCore_natToChars (n : Nat) : pyIntCore (natToChars n) = some (n : Int) := by
  have h := digitsToNat_natToChars n
  cases hnc : natToChars n with
  | nil => exact absurd hnc (natToChars_ne_nil n)
  | cons c cs =>
    rw [hnc] at h
    have hd : 48 ≤ c.toNat ∧ c.toNat ≤ 57 := by
      refine natToChars_digits n c ?_
      rw [hnc]
      exact List.mem_cons_self c cs
    have hne1 : c ≠ '-' := by
      intro he
      rw [he] at hd
      have h45 : ('-').toNat = 45 := rfl
      omega
    have hne2 : c ≠ '+' := by
      intro he
      rw [he] at hd
      have h43 : ('+').toNat = 43 := rfl
      omega
    unfold pyIntCore
    simp only
    rw [if_neg hne1, if_neg hne2, h]
    rfl

theorem pyInt_natToChars_int (s : Int) (hs : 0 ≤ s) : pyInt (natToChars s.toNat) = .ok s := by
  unfold pyInt
  rw [pyIntCore_natToChars]
  simp only
  congr 1
  omega

theorem mem_intToChars (i : Int) (c : Char) (hc : c ∈ intToChars i) :
    (48 ≤ c.toNat ∧ c.toNat ≤ 57) ∨ c = '-' := by
  unfold intToChars at hc
  split_ifs at hc with hneg
  · rcases List.mem_cons.mp hc with h | h
    · right; exact h
    · left; exact natToChars_digits _ c h
  · left; exact natToChars_digits _ c hc

theorem splitOnce_append (sep : Char) (A : List Char) (hA : sep ∉ A) (B : List Char) :
    splitOnce sep (A ++ sep :: B) = (A, some B) := by
  induction A with
  | nil =>
    simp only [List.nil_append, splitOnce]
    simp
  | cons a as ih =>
    have ha : a ≠ sep := by
      intro he
      exact hA (he ▸ List.mem_cons_self a as)
    simp only [List.cons_append, splitOnce]
    rw [if_neg ha]
    show (a :: (splitOnce sep (as ++ sep :: B)).1, (splitOnce sep (as ++ sep :: B)).2) =
      (a :: as, some B)
    rw [ih (fun hmem => hA (List.mem_cons_of_mem a hmem))]

theorem pySplit_no_sep (sep : Char) (p : List Char) (hp : sep ∉ p) :
    pySplit sep p = [p] := by
  induction p with
  | nil => rfl
  | cons c cs ih =>
    have hc : c ≠ sep := fun he => hp (he ▸ List.mem_cons_self c cs)
    simp only [pySplit]
    rw [if_neg hc, ih (fun h => hp (List.mem_cons_of_mem c h))]

theorem pySplit_sep_append (sep : Char) (p : List Char) (hp : sep ∉ p) (t : List Char) :
    pySplit sep (p ++ sep :: t) = p :: pySplit sep t := by
  induction p with
  | nil =>
    simp only [List.nil_append, pySplit]
    simp
  | cons c cs ih =>
    have hc : c ≠ sep := fun he => hp (he ▸ List.mem_cons_self c cs)
    simp only [List.cons_append, pySplit]
    rw [if_neg hc]
    show (match pySplit sep (cs ++ sep :: t) with
      | [] => [[c]]
      | h :: t2 => (c :: h) :: t2) = (c :: cs) :: pySplit sep t
    rw [ih (fun h => hp (List.mem_cons_of_mem c h))]

theorem pySplit_intercalateChar (sep : Char) : ∀ parts, parts ≠ [] →
    (∀ p ∈ parts, sep ∉ p) →
    pySplit sep (intercalateChar sep parts) = parts := by
  intro parts
  induction parts with
  | nil => intro h _; exact absurd rfl h
  | cons p ps ih =>
    intro _ hmem
    cases ps with
    | nil =>
      simp only [intercalateChar]
      exact pySplit_no_sep sep p (hmem p (List.mem_cons_self p []))
    | cons q qs =>
      simp only [intercalateChar]
      rw [pySplit_sep_append sep p (hmem p (List.mem_cons_self _ _)),
        ih (by simp) (fun r hr => hmem r (List.mem_cons_of_mem p hr))]

theorem mem_intercalateChar (sep : Char) : ∀ parts (c : Char),
    c ∈ intercalateChar sep parts → c = sep ∨ ∃ p ∈ parts, c ∈ p := by
  intro parts
  induction parts with
  | nil => intro c hc; cases hc
  | cons p ps ih =>
    intro c hc
    cases ps with
    | nil =>
      right
      refine ⟨p, List.mem_cons_self p [], ?_⟩
      simpa [intercalateChar] using hc
    | cons q qs =>
      simp only [intercalateChar] at hc
      rcases List.mem_append.mp hc with h | h
      · right; exact ⟨p, List.mem_cons_self _ _, h⟩
      · rcases List.mem_cons.mp h with h1 | h1
        · left; exact h1
        · rcases ih c h1 with h2 | h2
          · left; exact h2
          · right
            obtain ⟨r, hr, hcr⟩ := h2
            exact ⟨r, List.mem_cons_of_mem p hr, hcr⟩

theorem intercalateChar_ne_nil (sep : Char) (p : List Char) (ps : List (List Char))
    (hp : p ≠ []) : intercalateChar sep (p :: ps) ≠ [] := by
  cases ps with
  | nil => simpa [intercalateChar] using hp
  | cons q qs =>
    simp only [intercalateChar]
    simp [hp]

theorem parseChunk_serialized (s e total : Int) (hs : 1 ≤ s) (he : 1 ≤ e) :
    parseChunk (intToChars s ++ '-' :: intToChars e) total = .ok (s, e) := by
  have hnos : '-' ∉ natToChars s.toNat := by
    intro hmem
    have hd := natToChars_digits _ _ hmem
    have h45 : ('-').toNat = 45 := rfl
    omega
  have hint : intToChars s = natToChars s.toNat := by
    unfold intToChars
    rw [if_neg (by omega)]
  have hinte : intToChars e = natToChars e.toNat := by
    unfold intToChars
    rw [if_neg (by omega)]
  unfold parseChunk
  rw [hint, hinte, splitOnce_append '-' _ hnos _]
  simp only
  rw [if_neg (show ¬((natToChars s.toNat).isEmpty = true) from by
      simp [natToChars_isEmpty]),
    pyInt_natToChars_int s (by omega)]
  simp only
  rw [if_neg (show ¬((natToChars e.toNat).isEmpty = true) from by
      simp [natToChars_isEmpty]),
    pyInt_natToChars_int e (by omega)]

theorem processChunk_serialized (s e total : Int) (h1 : 1 ≤ s) (h2 : s ≤ e)
    (h3 : e ≤ total) :
    processChunk (intToChars s ++ '-' :: intToChars e) total = .ok (s, e) := by
  unfold processChunk
  rw [parseChunk_serialized s e total h1 (by omega)]
  simp only
  rw [if_neg (show ¬(s < 1 ∨ e < 1 ∨ s > total) from by omega),
    if_neg (show ¬(e > total) from by omega),
    if_neg (show ¬(s > e) from by omega)]

theorem resolveChunks_serialized (total : Int) : ∀ spans : List (Int × Int),
    (∀ sp ∈ spans, 1 ≤ sp.1 ∧ sp.1 ≤ sp.2 ∧ sp.2 ≤ total) →
    resolveChunks total
        (spans.map (fun p => intToChars p.1 ++ '-' :: intToChars p.2)) =
      .ok spans := by
  intro spans
  induction spans with
  | nil => intro _; rfl
  | cons sp sps ih =>
    intro hinv
    obtain ⟨h1, h2, h3⟩ := hinv sp (List.mem_cons_self _ _)
    simp only [List.map_cons, resolveChunks]
    rw [processChunk_serialized sp.1 sp.2 total h1 h2 h3,
      ih (fun r hr => hinv r (List.mem_cons_of_mem sp hr))]

theorem mem_chunkChars (sp : Int × Int) (c : Char)
    (hc : c ∈ intToChars sp.1 ++ '-' :: intToChars sp.2) :
    (48 ≤ c.toNat ∧ c.toNat ≤ 57) ∨ c = '-' := by
  rcases List.mem_append.mp hc with h | h
  · exact mem_intToChars _ c h
  · rcases List.mem_cons.mp h with h1 | h1
    · right; exact h1
    · exact mem_intToChars _ c h1

/-- C9: resolve / serialize / resolve round-trip.  Whenever `resolve`
succeeds, serializing the resulting span list back to a comma-separated
`start-end` expression and resolving it against the same page count
returns exactly the same span list. -/
theorem range_resolution_roundtrip (ranges : List Char) (total : Int)
    (spans : List (Int × Int)) (hok : parse_page_ranges ranges total = .ok spans) :
    parse_page_ranges (serializeSpans spans) total = .ok spans := by
  unfold parse_page_ranges at hok
  simp only at hok
  have hinv := resolveChunks_inv total _ spans hok
  have hlen := resolveChunks_length total _ spans hok
  have hspne : spans ≠ [] := by
    intro hsp
    subst hsp
    simp only [List.length_nil] at hlen
    exact pySplit_ne_nil ',' _ (List.length_eq_zero.mp hlen.symm)
  have hpartchars : ∀ p ∈ spans.map (fun q => intToChars q.1 ++ '-' :: intToChars q.2),
      ∀ c ∈ p, (48 ≤ c.toNat ∧ c.toNat ≤ 57) ∨ c = '-' := by
    intro p hp c hc
    obtain ⟨sp, hsp, hfeq⟩ := List.mem_map.mp hp
    subst hfeq
    exact mem_chunkChars sp c hc
  have hnocomma : ∀ p ∈ spans.map (fun q => intToChars q.1 ++ '-' :: intToChars q.2),
      ',' ∉ p := by
    intro p hp hmem
    rcases hpartchars p hp ',' hmem with h | h
    · have h44 : (',').toNat = 44 := rfl
      omega
    · exact absurd h (by decide)
  have hser_chars : ∀ c ∈ serializeSpans spans, ¬ c = ' ' := by
    intro c hc
    rcases mem_intercalateChar ',' _ c hc with h | h
    · subst h; decide
    · obtain ⟨p, hp, hcp⟩ := h
      rcases hpartchars p hp c hcp with h1 | h1
      · intro he
        subst he
        have h32 : (' ').toNat = 32 := rfl
        omega
      · subst h1; decide
  have hparts_ne : spans.map (fun q => intToChars q.1 ++ '-' :: intToChars q.2) ≠ [] := by
    cases spans with
    | nil => exact absurd rfl hspne
    | cons a b => simp
  have hser_ne : serializeSpans spans ≠ [] := by
    cases hsp2 : spans with
    | nil => exact absurd hsp2 hspne
    | cons sp sps =>
      unfold serializeSpans
      rw [List.map_cons]
      exact intercalateChar_ne_nil ',' _ _ (by simp)
  unfold parse_page_ranges
  simp only
  rw [if_neg (show ¬((serializeSpans spans).isEmpty = true) from by
    simp [List.isEmpty_iff, hser_ne])]
  rw [List.filter_eq_self.mpr (fun c hc => by simpa using hser_chars c hc)]
  unfold serializeSpans
  rw [pySplit_intercalateChar ',' _ hparts_ne hnocomma]
  exact resolveChunks_serialized total spans hinv

/-- Witness for C9: `resolve("1-3,5", 10)` succeeds with `[(1,3),(5,5)]`,
whose serialization resolves to the same spans. -/
theorem range_resolution_roundtrip_witness :
    parse_page_ranges ("1-3,5".toList) 10 = .ok [(1, 3), (5, 5)] ∧
    parse_page_ranges (serializeSpans [(1, 3), (5, 5)]) 10 = .ok [(1, 3), (5, 5)] := by
  have h1 : parse_page_ranges ("1-3,5".toList) 10 = .ok [(1, 3), (5, 5)] := by rfl
  exact ⟨h1, range_resolution_roundtrip ("1-3,5".toList) 10 [(1, 3), (5, 5)] h1⟩

end DarkPDF
